import Mathlib

/-!
Shallow embedding of the template engine of odf-kit (the healer module and
the replacer module): the tokenizer, ribbon builder, placeholder locator,
fragment healer, empty-span cleanup, and the section/value replacement
engine, together with proofs settling the specification claims.

Strings are modelled as `List Char` (`Str`). JavaScript template data is
modelled by the inductive `Value`; an object is an association list whose
lookup takes the first matching key, so the JS spread merge
`\x7b...data, ...item\x7d` is embedded as `item ++ data`.

The mutual recursion `replaceAll` / `replaceSections` of the source is not
total (substituted values may re-inject section markers, and the per-call
safety counter of the source does not bound the recursion depth — see the
C9 theorem), so the render pipeline is embedded as a fuel-indexed function
`replaceAllF`; `Renders s d r` states that the source computation
terminates with `r` (some fuel suffices), and monotonicity in the fuel
makes the result unique. Every scanning loop of the source is embedded
with structural fuel no smaller than the number of iterations the loop can
make (each comment justifies the bound), so all definitions reduce in the
kernel and concrete claims are settled by `decide`.
-/

namespace Odf

abbrev Str := List Char

/-- Character at index `i`, NUL when out of range (the source only reads
positions it has bounds-checked, or compares the result against specific
non-NUL characters). -/
def charAt (s : Str) (i : Nat) : Char := s.getD i '\x00'

/-- JS `s.slice(a, b)` for `0 ≤ a ≤ b`, the only form the source uses. -/
def slice (s : Str) (a b : Nat) : Str := (s.drop a).take (b - a)

/-- Index of the first occurrence of character `t` (JS `indexOf`). -/
def idxOfCh (t : Char) : Str → Option Nat
  | [] => none
  | c :: cs => if c = t then some 0 else (idxOfCh t cs).map (· + 1)

/-- Index of the last occurrence of character `t` (JS `lastIndexOf`). -/
def lastIdxOfCh (t : Char) : Str → Option Nat
  | [] => none
  | c :: cs =>
      match lastIdxOfCh t cs with
      | some j => some (j + 1)
      | none => if c = t then some 0 else none

/-- Index of the first occurrence of the substring `pat` (JS `indexOf`). -/
def findSub (pat : Str) : Str → Option Nat
  | [] => if pat.isEmpty then some 0 else none
  | c :: cs => if pat.isPrefixOf (c :: cs) then some 0 else (findSub pat cs).map (· + 1)

/-- JS `xml.indexOf(pat, start)`. -/
def findSubFrom (pat xml : Str) (start : Nat) : Option Nat :=
  (findSub pat (xml.drop start)).map (· + start)

/-- A JavaScript value as the template engine can observe it (the
replacer's `TemplateData` values): string, number (the claims only
exercise integers), boolean, null, undefined, array, or object. An object
is an association list; lookup takes the first match, so a JS spread
merge puts the overriding entries in front. -/
inductive Value where
  | vStr : Str → Value
  | vNum : Int → Value
  | vBool : Bool → Value
  | vNull : Value
  | vUndefd : Value
  | vArr : List Value → Value
  | vObj : List (Str × Value) → Value

abbrev Data := List (Str × Value)

/-- Decimal rendering of an integer, as JS `String(n)` prints integers. -/
def intToStr : Int → Str
  | .ofNat n => Nat.toDigits 10 n
  | .negSucc n => '-' :: Nat.toDigits 10 (n + 1)

mutual

/-- JS `String(value)` as the replacer applies it to substituted values:
strings unchanged, numbers in decimal, booleans as their names, arrays
comma-joined (JS `Array.prototype.toString`), objects as
`[object Object]`. The replacer never applies it to null/undefined
(guarded by `value == null`), but the JS conversions are included. -/
def jsToString : Value → Str
  | .vStr s => s
  | .vNum n => intToStr n
  | .vBool b => if b then "true".toList else "false".toList
  | .vNull => "null".toList
  | .vUndefd => "undefined".toList
  | .vObj _ => "[object Object]".toList
  | .vArr l => jsArrString l

/-- Comma-joined element rendering (JS `Array.prototype.toString`);
null and undefined elements print as empty (JS `join`). -/
def jsArrString : List Value → Str
  | [] => []
  | [.vNull] => []
  | [.vUndefd] => []
  | [v] => jsToString v
  | .vNull :: vs => ',' :: jsArrString vs
  | .vUndefd :: vs => ',' :: jsArrString vs
  | v :: vs => jsToString v ++ ',' :: jsArrString vs

end

/-- JS boolean coercion `if (value)` as the replacer uses it: false for
`false`, `0`, the empty string, `null`, `undefined`; true for everything
else, including every array and every object. -/
def truthy : Value → Bool
  | .vStr s => !s.isEmpty
  | .vNum n => n != 0
  | .vBool b => b
  | .vNull => false
  | .vUndefd => false
  | .vArr _ => true
  | .vObj _ => true

/-- JS loose comparison `value == null`: true exactly for null and
undefined. -/
def isNullish : Value → Bool
  | .vNull => true
  | .vUndefd => true
  | _ => false

/-- First-match lookup in an association list (property read on the merged
objects this engine builds). A missing key is undefined. -/
def lookupKey : Data → Str → Value
  | [], _ => .vUndefd
  | (k, v) :: rest, key => if k = key then v else lookupKey rest key

/-- Canonical array index: JS arrays expose element `n` under the property
name that is the canonical decimal numeral of `n`. -/
def parseIndex (k : Str) : Option Nat :=
  if k.isEmpty then none
  else if !(k.all fun c => c.isDigit) then none
  else if charAt k 0 = '0' ∧ k ≠ ['0'] then none
  else some (k.foldl (fun acc c => acc * 10 + (c.toNat - 48)) 0)

/-- JS property read `current[part]` for the object kinds `resolveValue`
can step through: objects by key, arrays by canonical index or `length`. -/
def getProp : Value → Str → Value
  | .vObj fs, k => lookupKey fs k
  | .vArr l, k =>
      if k = "length".toList then .vNum l.length
      else
        match parseIndex k with
        | some n => l.getD n .vUndefd
        | none => .vUndefd
  | _, _ => .vUndefd

/-- JS `path.split(".")`. -/
def splitOnDot : Str → List Str
  | [] => [[]]
  | c :: cs =>
      match splitOnDot cs with
      | h :: t => if c = '.' then [] :: h :: t else (c :: h) :: t
      | [] => [[c]]

/-- The replacer's `resolveValue` loop: walk the dotted path, stepping
only through objects and arrays (JS `typeof current === "object"` and not
null); a step from anything else resolves to undefined. -/
def resolveGo : Value → List Str → Value
  | cur, [] => cur
  | cur, p :: ps =>
      match cur with
      | .vObj _ => resolveGo (getProp cur p) ps
      | .vArr _ => resolveGo (getProp cur p) ps
      | _ => .vUndefd

/-- The replacer's `resolveValue`. -/
def resolveValue (d : Data) (path : Str) : Value :=
  resolveGo (.vObj d) (splitOnDot path)

/-- Replace every occurrence of the character `c` by the string `r`
(JS `replace` with a one-character global pattern). -/
def replaceCh (c : Char) (r : Str) : Str → Str
  | [] => []
  | x :: xs => (if x = c then r else [x]) ++ replaceCh c r xs

/-- The replacer's `xmlEscape`: five sequential global replaces, ampersand
first. -/
def xmlEscape (s : Str) : Str :=
  replaceCh '\x27' "&apos;".toList
    (replaceCh '\x22' "&quot;".toList
      (replaceCh '>' "&gt;".toList
        (replaceCh '<' "&lt;".toList
          (replaceCh '&' "&amp;".toList s))))

/-- `[a-zA-Z_]`, the identifier start of the placeholder grammar. -/
def isIdentStart (c : Char) : Bool := c.isAlpha || c = '_'

/-- `[a-zA-Z0-9_.]`, the identifier continuation class. -/
def isIdentCont (c : Char) : Bool := c.isAlphanum || c = '_' || c = '.'

/-- Length of a PLACEHOLDER_RE match anchored at the head of `s`
(`\x7b`, optional `#` or `/`, an identifier, `\x7d`). The character
classes exclude both braces, so the greedy star is the maximal identifier
run and the match is deterministic. -/
def phLenAt (s : Str) : Option Nat :=
  match s with
  | '\x7b' :: rest =>
      let hashLen :=
        match rest with
        | c :: _ => if c = '#' ∨ c = '/' then 1 else 0
        | [] => 0
      match rest.drop hashLen with
      | c :: cs =>
          if isIdentStart c then
            let run := cs.takeWhile isIdentCont
            match cs.drop run.length with
            | '\x7d' :: _ => some (1 + hashLen + 1 + run.length + 1)
            | _ => none
          else none
      | [] => none
  | _ => none

/-- The healer's `findPlaceholders`: all non-overlapping PLACEHOLDER_RE
matches over the ribbon, left to right, as
`(start, inclusive end, matched text)`. Fuel: every step consumes at
least one character, so `ribbon.length` suffices. -/
def findPhGo : Nat → Nat → Str → List (Nat × Nat × Str)
  | 0, _, _ => []
  | _+1, _, [] => []
  | f+1, i, c :: cs =>
      match phLenAt (c :: cs) with
      | some len =>
          (i, i + len - 1, (c :: cs).take len) :: findPhGo f (i + len) (cs.drop (len - 1))
      | none => findPhGo f (i + 1) cs

/-- The healer's `findPlaceholders`. -/
def findPlaceholders (ribbon : Str) : List (Nat × Nat × Str) :=
  findPhGo ribbon.length 0 ribbon

/-- The healer's `Segment`: an XML tag or a run of text between tags. -/
inductive Segment where
  | tag : Str → Segment
  | text : Str → Segment
deriving DecidableEq

/-- The raw content of a segment. -/
def Segment.content : Segment → Str
  | .tag c => c
  | .text c => c

/-- The healer's `tokenize`, with structural fuel: each step consumes at
least one character, so fuel `s.length` never runs out. An unmatched `<`
turns the remainder into one trailing text segment. -/
def tokenizeGo : Nat → Str → List Segment
  | 0, s => if s.isEmpty then [] else [.text s]
  | _+1, [] => []
  | f+1, c :: cs =>
      if c = '<' then
        match idxOfCh '>' (c :: cs) with
        | none => [.text (c :: cs)]
        | some j => .tag ((c :: cs).take (j + 1)) :: tokenizeGo f ((c :: cs).drop (j + 1))
      else
        match idxOfCh '<' (c :: cs) with
        | none => [.text (c :: cs)]
        | some j => .text ((c :: cs).take j) :: tokenizeGo f ((c :: cs).drop j)

/-- The healer's `tokenize`. -/
def tokenize (s : Str) : List Segment := tokenizeGo s.length s

/-- The healer's `CharOrigin`: which segment, and which position inside
that segment, one ribbon character came from. -/
structure CharOrigin where
  segIndex : Nat
  charIndex : Nat
deriving DecidableEq

/-- The healer's `buildRibbon` loop: ribbon characters paired with their
origins; tag segments contribute nothing. -/
def ribbonFrom : Nat → List Segment → List (Char × CharOrigin)
  | _, [] => []
  | i, .tag _ :: rest => ribbonFrom (i + 1) rest
  | i, .text c :: rest =>
      (c.enum.map fun p => (p.2, CharOrigin.mk i p.1)) ++ ribbonFrom (i + 1) rest

/-- The healer's `buildRibbon`. -/
def buildRibbon (segs : List Segment) : Str × List CharOrigin :=
  ((ribbonFrom 0 segs).map Prod.fst, (ribbonFrom 0 segs).map Prod.snd)

/-- One match of the cleanup pattern (literal `<text:span`, a greedy run
of non-`>` characters, `>`, literal `</text:span>`) anchored at the head
of `s`, returning the remainder after the matched pair. The class
excludes `>`, so the greedy run is exactly the run up to the first `>`. -/
def stripSpanPair (s : Str) : Option Str :=
  if ("<text:span".toList).isPrefixOf s then
    let r := s.drop 10
    let attrs := r.takeWhile (fun c => c != '>')
    let r2 := r.drop attrs.length
    if ("></text:span>".toList).isPrefixOf r2 then some (r2.drop 13) else none
  else none

/-- The `removeEmptySpans` of both modules: one left-to-right pass of the
global replace; replacements are not rescanned. Fuel: every step consumes
at least one character, so `s.length` suffices. -/
def rmSpansGo : Nat → Str → Str
  | 0, s => s
  | _+1, [] => []
  | f+1, c :: cs =>
      match stripSpanPair (c :: cs) with
      | some rest => rmSpansGo f rest
      | none => c :: rmSpansGo f cs

/-- `removeEmptySpans`. -/
def removeEmptySpans (s : Str) : Str := rmSpansGo s.length s

/-- One iteration of the healer's reverse-order loop: consolidate one
located placeholder. A placeholder whose first and last character map to
the same segment is skipped; otherwise the first touched segment keeps
its pre-marker text plus the whole marker, the last keeps only the text
strictly after the closing brace, intermediate text segments are cleared,
intermediate self-closing tags are cleared, and other tags stay. -/
def healStep (charMap : List CharOrigin) (segs : List Segment)
    (ph : Nat × Nat × Str) : List Segment :=
  let o1 := charMap.getD ph.1 (CharOrigin.mk 0 0)
  let o2 := charMap.getD ph.2.1 (CharOrigin.mk 0 0)
  if o1.segIndex = o2.segIndex then segs
  else
    let firstContent := (segs.getD o1.segIndex (.text [])).content
    let segs1 := segs.set o1.segIndex (.text (firstContent.take o1.charIndex ++ ph.2.2))
    let lastContent := (segs1.getD o2.segIndex (.text [])).content
    let segs2 := segs1.set o2.segIndex (.text (lastContent.drop (o2.charIndex + 1)))
    segs2.enum.map fun p =>
      if o1.segIndex + 1 ≤ p.1 ∧ p.1 < o2.segIndex then
        match p.2 with
        | .text _ => .text []
        | .tag c => if ("/>".toList).isSuffixOf c then .tag [] else .tag c
      else p.2

/-- The healer's `healPlaceholders` (the spec's `heal`): tokenize, build
the ribbon, locate placeholders, consolidate fragmented ones in reverse
ribbon order, rebuild, and clean up empty spans. When no placeholder is
found the input is returned unchanged (the rebuild and the cleanup are
skipped). -/
def healPlaceholders (s : Str) : Str :=
  let segments := tokenize s
  let rib := buildRibbon segments
  let phs := findPlaceholders rib.1
  if phs.isEmpty then s
  else
    let healed := phs.reverse.foldl (healStep rib.2) segments
    removeEmptySpans ((healed.map Segment.content).flatten)

/-- The replacer's `findMatchingClose` loop. Fuel: `pos` strictly
increases every iteration and the loop stops at `xml.length`, so
`xml.length + 1` steps suffice. -/
def findCloseGo (xml openTag closeTag : Str) : Nat → Nat → Nat → Option Nat
  | 0, _, _ => none
  | f+1, depth, pos =>
      if depth > 0 ∧ pos < xml.length then
        match findSubFrom closeTag xml pos with
        | none => none
        | some nc =>
            match findSubFrom openTag xml pos with
            | some no =>
                if no < nc then
                  findCloseGo xml openTag closeTag f (depth + 1) (no + openTag.length)
                else if depth - 1 = 0 then some nc
                else findCloseGo xml openTag closeTag f (depth - 1) (nc + closeTag.length)
            | none =>
                if depth - 1 = 0 then some nc
                else findCloseGo xml openTag closeTag f (depth - 1) (nc + closeTag.length)
      else none

/-- The replacer's `findMatchingClose`: index of the matching close
marker found by depth counting, `none` for JS `-1`. -/
def findMatchingClose (xml : Str) (tag : Str) (searchFrom : Nat) : Option Nat :=
  findCloseGo xml ('\x7b' :: '#' :: tag ++ ['\x7d']) ('\x7b' :: '/' :: tag ++ ['\x7d'])
    (xml.length + 1) 1 searchFrom

/-- The whitespace set the boundary expander skips (the source's literal
four-character string). -/
def isWs4 (c : Char) : Bool := c = ' ' || c = '\n' || c = '\r' || c = '\t'

/-- JS regex `\s` for the tag-name pattern (ASCII part; the source only
meets ASCII whitespace). -/
def isJsWs (c : Char) : Bool :=
  c = ' ' || c = '\t' || c = '\n' || c = '\r' || c = '\x0b' || c = '\x0c'

/-- Skip whitespace leftwards from index `i`; `none` when the probe falls
off the left end (JS `backProbe < 0`). -/
def skipWsBack (xml : Str) : Nat → Option Nat
  | 0 => if isWs4 (charAt xml 0) then none else some 0
  | i+1 => if isWs4 (charAt xml (i + 1)) then skipWsBack xml i else some (i + 1)

/-- Skip whitespace rightwards from index `i` while in range. Fuel: the
probe only increases up to the length, so `xml.length + 1` suffices. -/
def skipWsFwd (xml : Str) : Nat → Nat → Nat
  | 0, i => i
  | f+1, i => if i < xml.length ∧ isWs4 (charAt xml i) then skipWsFwd xml f (i + 1) else i

/-- The replacer's `expandBoundary` loop. Fuel: the start index strictly
decreases on every iteration, so `s + 1` steps suffice. -/
def expandBoundaryGo (xml : Str) : Nat → Nat → Nat → Nat × Nat
  | 0, s, e => (s, e)
  | f+1, s, e =>
      if s = 0 then (s, e)
      else
        match skipWsBack xml (s - 1) with
        | none => (s, e)
        | some bp =>
            if charAt xml bp ≠ '>' then (s, e)
            else
              match lastIdxOfCh '<' (xml.take (bp + 1)) with
              | none => (s, e)
              | some ots =>
                  let openTagStr := slice xml ots (bp + 1)
                  if ("</".toList).isPrefixOf openTagStr ∨
                      ("/>".toList).isSuffixOf openTagStr then (s, e)
                  else
                    let elemName := (openTagStr.drop 1).takeWhile
                      (fun c => !(isJsWs c) && c != '>' && c != '/')
                    if elemName.isEmpty then (s, e)
                    else
                      let fp := skipWsFwd xml (xml.length + 1) e
                      if fp ≥ xml.length ∨ charAt xml fp ≠ '<' then (s, e)
                      else
                        match idxOfCh '>' (xml.drop fp) with
                        | none => (s, e)
                        | some rel =>
                            let closeTagStr := slice xml fp (fp + rel + 1)
                            if closeTagStr = '<' :: '/' :: elemName ++ ['>'] then
                              expandBoundaryGo xml f ots (fp + rel + 1)
                            else (s, e)

/-- The replacer's `expandBoundary`. -/
def expandBoundary (xml : Str) (s e : Nat) : Nat × Nat :=
  expandBoundaryGo xml (s + 1) s e

/-- SECTION_OPEN_RE anchored at the head: `\x7b#`, an identifier, `\x7d`,
returning the identifier. -/
def sectionOpenAt : Str → Option Str
  | '\x7b' :: '#' :: c :: cs =>
      if isIdentStart c then
        let run := cs.takeWhile isIdentCont
        match cs.drop run.length with
        | '\x7d' :: _ => some (c :: run)
        | _ => none
      else none
  | _ => none

/-- The replacer's `SECTION_OPEN_RE.exec(result)`: position and identifier
of the first section-open marker, scanning left to right. -/
def sectionOpenFindGo : Nat → Str → Option (Nat × Str)
  | _, [] => none
  | i, c :: cs =>
      match sectionOpenAt (c :: cs) with
      | some tag => some (i, tag)
      | none => sectionOpenFindGo (i + 1) cs

/-- First SECTION_OPEN_RE match of a string. -/
def sectionOpenFind (s : Str) : Option (Nat × Str) := sectionOpenFindGo 0 s

/-- SIMPLE_RE anchored at the head: `\x7b`, an identifier (no `#` or `/`),
`\x7d`, returning the identifier and the remainder after the match. -/
def simpleAt : Str → Option (Str × Str)
  | '\x7b' :: c :: cs =>
      if isIdentStart c then
        let run := cs.takeWhile isIdentCont
        match cs.drop run.length with
        | '\x7d' :: rest => some (c :: run, rest)
        | _ => none
      else none
  | _ => none

/-- The replacer's `replaceSimple`: one left-to-right global-replace pass
over the string; replacement text is appended, never rescanned. A matched
key resolves through `resolveValue`; null/undefined become empty,
everything else is stringified and XML-escaped. Fuel: every step consumes
at least one character, so `s.length` suffices. -/
def simpleGo (d : Data) : Nat → Str → Str
  | 0, s => s
  | _+1, [] => []
  | f+1, c :: cs =>
      match simpleAt (c :: cs) with
      | some (key, rest) =>
          let value := resolveValue d key
          (if isNullish value then [] else xmlEscape (jsToString value)) ++ simpleGo d f rest
      | none => c :: simpleGo d f cs

/-- The replacer's `replaceSimple`. -/
def replaceSimple (s : Str) (d : Data) : Str := simpleGo d s.length s

/-- The JS spread `\x7b...data, ...own\x7d` builds the child scope: the
overriding entries go in front of the first-match association list.
Arrays spread their elements under canonical index names. -/
def spreadFields : Value → Option Data
  | .vObj fs => some fs
  | .vArr l => some (l.enum.map fun p => (Nat.toDigits 10 p.1, p.2))
  | _ => none

/-- The replacer's loop-item / section scope:
`typeof v === "object" && v !== null` merges `v` over the active data,
anything else reuses the active data unchanged. -/
def childScope (d : Data) (v : Value) : Data :=
  match spreadFields v with
  | some fs => fs ++ d
  | none => d

/-- Render each array element of a section against its child scope (the
`value.map` of the replacer), propagating fuel exhaustion of the
recursive render. -/
def renderItems (ra : Str → Data → Option Str) (inner : Str) (d : Data) :
    List Value → Option (List Str)
  | [] => some []
  | item :: rest =>
      match ra inner (childScope d item) with
      | none => none
      | some r =>
          match renderItems ra inner d rest with
          | none => none
          | some rs => some (r :: rs)

/-- The replacer's `replaceSections`: the rescan-after-mutation loop with
its safety counter (the source executes the body at most 1000 times and
then returns the current best-effort string), taking the recursive
`replaceAll` as a parameter. `none` only means the recursive render ran
out of fuel; every `break`/cap exit of the source returns the current
string. -/
def replaceSectionsGo (ra : Str → Data → Option Str) :
    Nat → Str → Data → Option Str
  | 0, t, _ => some t
  | k+1, t, d =>
      match sectionOpenFind t with
      | none => some t
      | some (rawOpenStart, tag) =>
          let openTag := '\x7b' :: '#' :: tag ++ ['\x7d']
          let closeTag := '\x7b' :: '/' :: tag ++ ['\x7d']
          let rawOpenEnd := rawOpenStart + openTag.length
          match findMatchingClose t tag rawOpenEnd with
          | none => some t
          | some rawCloseStart =>
              let rawCloseEnd := rawCloseStart + closeTag.length
              let ob := expandBoundary t rawOpenStart rawOpenEnd
              let cb := expandBoundary t rawCloseStart rawCloseEnd
              let before := slice t 0 ob.1
              let inner := slice t ob.2 cb.1
              let after := t.drop cb.2
              let expOpt : Option Str :=
                match resolveValue d tag with
                | .vArr items => (renderItems ra inner d items).map List.flatten
                | v =>
                    if truthy v then ra inner (childScope d v)
                    else some []
              match expOpt with
              | none => none
              | some expansion =>
                  replaceSectionsGo ra k (before ++ expansion ++ after) d

/-- The replacer's `replaceAll` (the spec's `render`), indexed by fuel for
the mutual recursion with `replaceSections`: sections first, then simple
placeholders, then the empty-span cleanup. `none` means the fuel ran out;
the source function is genuinely partial (see the C9 theorem), so the
fuel is semantic and `Renders` below quantifies over it. -/
def replaceAllF : Nat → Str → Data → Option Str
  | 0, _, _ => none
  | n+1, s, d =>
      (replaceSectionsGo (replaceAllF n) 1000 s d).map fun t =>
        removeEmptySpans (replaceSimple t d)

/-- The rendering relation: the source `replaceAll` terminates on `(s, d)`
with result `r` (some fuel suffices). Monotonicity in the fuel makes the
result unique (`rendersDet`). -/
def Renders (s : Str) (d : Data) (r : Str) : Prop :=
  ∃ n, replaceAllF n s d = some r

/-- The text content of an XML string: the concatenation of all tokenizer
text segments, i.e. the ribbon. -/
def textContent (s : Str) : Str := (buildRibbon (tokenize s)).1

end Odf

namespace Odf

theorem renderItems_mono {f g : Str → Data → Option Str}
    (h : ∀ s d r, f s d = some r → g s d = some r) :
    ∀ (l : List Value) (inner : Str) (d : Data) (rs : List Str),
      renderItems f inner d l = some rs → renderItems g inner d l = some rs := by
  intro l
  induction l with
  | nil => intro inner d rs H; simpa [renderItems] using H
  | cons item rest ih =>
      intro inner d rs H
      rw [renderItems] at H ⊢
      generalize hf : f inner (childScope d item) = of at H
      cases of with
      | none => exact absurd H (by simp)
      | some r =>
          generalize hrest : renderItems f inner d rest = orest at H
          cases orest with
          | none => exact absurd H (by simp)
          | some rs' =>
              rw [h _ _ _ hf, ih _ _ _ hrest]
              exact H

theorem sectionsGo_mono {f g : Str → Data → Option Str}
    (h : ∀ s d r, f s d = some r → g s d = some r) :
    ∀ (k : Nat) (t : Str) (d : Data) (r : Str),
      replaceSectionsGo f k t d = some r → replaceSectionsGo g k t d = some r := by
  intro k
  induction k with
  | zero => intro t d r H; simpa [replaceSectionsGo] using H
  | succ k ih =>
      intro t d r H
      rw [replaceSectionsGo] at H ⊢
      generalize hfind : sectionOpenFind t = ofind at H ⊢
      cases ofind with
      | none => exact H
      | some pair =>
          rcases pair with ⟨rawOpenStart, tag⟩
          try dsimp only at H ⊢
          generalize hclose :
            findMatchingClose t tag (rawOpenStart + ('\x7b' :: '#' :: tag ++ ['\x7d']).length) = oc at H ⊢
          cases oc with
          | none => exact H
          | some rawCloseStart =>
              try dsimp only at H ⊢
              generalize hval : resolveValue d tag = v at H ⊢
              cases v
              case vArr items =>
                  try dsimp only at H ⊢
                  generalize hitems : renderItems f
                      (slice t (expandBoundary t rawOpenStart
                        (rawOpenStart + ('\x7b' :: '#' :: tag ++ ['\x7d']).length)).2
                        (expandBoundary t rawCloseStart
                          (rawCloseStart + ('\x7b' :: '/' :: tag ++ ['\x7d']).length)).1) d items = oi at H
                  cases oi with
                  | none => exact absurd H (by simp)
                  | some rs =>
                      rw [renderItems_mono h _ _ _ _ hitems]
                      try dsimp only at H ⊢
                      exact ih _ _ _ H
              all_goals (
                try dsimp only at H ⊢
                split at H <;> rename_i htr
                · exact absurd H (by simp)
                · split at htr <;> rename_i hc
                  · rw [if_pos hc, h _ _ _ htr]
                    exact ih _ _ _ H
                  · rw [if_neg hc]
                    rw [Option.some.injEq] at htr
                    subst htr
                    exact ih _ _ _ H)


theorem replaceAllF_succ :
    ∀ (n : Nat) (s : Str) (d : Data) (r : Str),
      replaceAllF n s d = some r → replaceAllF (n + 1) s d = some r := by
  intro n
  induction n with
  | zero => intro s d r H; exact absurd H (by simp [replaceAllF])
  | succ n ih =>
      intro s d r H
      rw [replaceAllF] at H ⊢
      generalize hsec : replaceSectionsGo (replaceAllF n) 1000 s d = osec at H
      cases osec with
      | none => exact absurd H (by simp)
      | some t =>
          rw [sectionsGo_mono ih 1000 s d t hsec]
          exact H

theorem replaceAllF_mono {n m : Nat} (hnm : n ≤ m) :
    ∀ {s : Str} {d : Data} {r : Str},
      replaceAllF n s d = some r → replaceAllF m s d = some r := by
  induction m with
  | zero =>
      intro s d r H
      have : n = 0 := Nat.le_zero.mp hnm
      rw [this] at H
      exact absurd H (by simp [replaceAllF])
  | succ m ih =>
      intro s d r H
      rcases Nat.lt_or_ge n (m + 1) with hlt | hge
      · exact replaceAllF_succ m s d r (ih (Nat.lt_succ_iff.mp hlt) H)
      · have : n = m + 1 := Nat.le_antisymm hnm hge
        rw [← this]; exact H

theorem rendersDet {s : Str} {d : Data} {r₁ r₂ : Str}
    (h₁ : Renders s d r₁) (h₂ : Renders s d r₂) : r₁ = r₂ := by
  rcases h₁ with ⟨n₁, e₁⟩
  rcases h₂ with ⟨n₂, e₂⟩
  have E₁ := replaceAllF_mono (Nat.le_max_left n₁ n₂) e₁
  have E₂ := replaceAllF_mono (Nat.le_max_right n₁ n₂) e₂
  rw [E₁] at E₂
  exact Option.some.inj E₂

end Odf

namespace Odf

/-- A section loop on a string with no section-open marker returns the
string unchanged, whatever the recursive render and the counter. -/
theorem sectionsGo_no_open {t : Str} (h : sectionOpenFind t = none)
    (ra : Str → Data → Option Str) (k : Nat) (d : Data) :
    replaceSectionsGo ra k t d = some t := by
  cases k with
  | zero => rfl
  | succ k => rw [replaceSectionsGo, h]

/-- SECTION_OPEN_RE cannot match at a head that is not an open brace. -/
theorem sectionOpenAt_ne {c : Char} {s : Str} (hc : c ≠ '\x7b') :
    sectionOpenAt (c :: s) = none := by
  rw [sectionOpenAt.eq_def]
  split
  · rename_i c2 cs heq
    injection heq with h1 h2
    exact absurd h1 hc
  · rfl

/-- The section-open scan passes over a brace-free prefix. -/
theorem sectionOpenFindGo_append {a : Str} (ha : '\x7b' ∉ a) :
    ∀ (i : Nat) (b : Str),
      sectionOpenFindGo i (a ++ b) = sectionOpenFindGo (i + a.length) b := by
  induction a with
  | nil => intro i b; simp
  | cons c a ih =>
      intro i b
      have hc : c ≠ '\x7b' := fun h => ha (h ▸ List.mem_cons_self c a)
      rw [List.cons_append, sectionOpenFindGo, sectionOpenAt_ne hc,
        ih (fun h => ha (List.mem_cons_of_mem c h)) (i + 1) b]
      have : i + 1 + a.length = i + (c :: a).length := by
        simp only [List.length_cons]
        omega
      rw [this]

/-- A brace-free string has no section-open marker. -/
theorem sectionOpenFind_none {t : Str} (h : '\x7b' ∉ t) :
    sectionOpenFind t = none := by
  have := sectionOpenFindGo_append h 0 []
  simpa [sectionOpenFind] using this

/-- One iteration of the section loop, extracted: given where the scan,
the matching close, and the two boundary expansions land (closed facts on
a concrete string), the iteration reduces to resolving the tag and
recursing. -/
theorem sectionsGo_step (ra : Str → Data → Option Str) (k : Nat) (t : Str) (d : Data)
    (ros : Nat) (tag : Str) (rcs : Nat) (ob cb : Nat × Nat)
    (hfind : sectionOpenFind t = some (ros, tag))
    (hclose : findMatchingClose t tag (ros + (tag.length + 3)) = some rcs)
    (hob : expandBoundary t ros (ros + (tag.length + 3)) = ob)
    (hcb : expandBoundary t rcs (rcs + (tag.length + 3)) = cb) :
    replaceSectionsGo ra (k + 1) t d =
      match (match resolveValue d tag with
             | .vArr items => (renderItems ra (slice t ob.2 cb.1) d items).map List.flatten
             | v => if truthy v then ra (slice t ob.2 cb.1) (childScope d v) else some []) with
      | none => none
      | some expansion =>
          replaceSectionsGo ra k (slice t 0 ob.1 ++ expansion ++ t.drop cb.2) d := by
  have hlen1 : ('\x7b' :: '#' :: tag ++ ['\x7d']).length = tag.length + 3 := by
    simp
  have hlen2 : ('\x7b' :: '/' :: tag ++ ['\x7d']).length = tag.length + 3 := by
    simp
  rw [replaceSectionsGo, hfind]
  dsimp only
  rw [hlen1, hlen2, hclose]
  dsimp only
  rw [hob, hcb]
  rfl

end Odf

namespace Odf

/-- SIMPLE_RE cannot match at a head that is not an open brace. -/
theorem simpleAt_ne {c : Char} {s : Str} (hc : c ≠ '\x7b') :
    simpleAt (c :: s) = none := by
  rw [simpleAt.eq_def]
  split
  · rename_i c2 cs heq
    injection heq with h1 h2
    exact absurd h1 hc
  · rfl

/-- The simple-replace pass leaves a brace-free string unchanged,
whatever the fuel (fuel zero returns the string as well). -/
theorem simpleGo_no_brace {d : Data} :
    ∀ {s : Str}, '\x7b' ∉ s → ∀ (f : Nat), simpleGo d f s = s := by
  intro s
  induction s with
  | nil => intro _ f; cases f <;> rfl
  | cons c cs ih =>
      intro h f
      cases f with
      | zero => rfl
      | succ f =>
          have hc : c ≠ '\x7b' := fun e => h (e ▸ List.mem_cons_self c cs)
          rw [simpleGo, simpleAt_ne hc, ih (fun e => h (List.mem_cons_of_mem c e)) f]

/-- `replaceSimple` leaves a brace-free string unchanged. -/
theorem replaceSimple_no_brace {s : Str} (h : '\x7b' ∉ s) (d : Data) :
    replaceSimple s d = s := simpleGo_no_brace h s.length

/-- The cleanup pattern cannot match at a head that is not `<`. -/
theorem stripSpanPair_ne {c : Char} {s : Str} (hc : c ≠ '<') :
    stripSpanPair (c :: s) = none := by
  have hpre : (("<text:span".toList).isPrefixOf (c :: s)) = false := by
    rw [show "<text:span".toList = '<' :: "text:span".toList from rfl]
    simp only [List.isPrefixOf, Bool.and_eq_false_imp, beq_eq_false_iff_ne, ne_eq,
      beq_iff_eq]
    intro h
    exact absurd h.symm hc
  rw [stripSpanPair, hpre]
  rfl

/-- No cleanup match starts anywhere in `s`. -/
def NoSpan (s : Str) : Prop := ∀ i, stripSpanPair (s.drop i) = none

/-- The empty-span cleanup leaves a match-free string unchanged,
whatever the fuel. -/
theorem rmSpansGo_no_match :
    ∀ {s : Str}, NoSpan s → ∀ (f : Nat), rmSpansGo f s = s := by
  intro s
  induction s with
  | nil => intro _ f; cases f <;> rfl
  | cons c cs ih =>
      intro h f
      cases f with
      | zero => rfl
      | succ f =>
          have h0 := h 0
          rw [List.drop_zero] at h0
          rw [rmSpansGo, h0, ih (fun i => h (i + 1)) f]

/-- `removeEmptySpans` leaves a match-free string unchanged. -/
theorem removeEmptySpans_no_match {s : Str} (h : NoSpan s) :
    removeEmptySpans s = s := rmSpansGo_no_match h s.length

/-- Splitting a `NoSpan` obligation at an append. -/
theorem NoSpan_append {x y : Str}
    (h1 : ∀ i, i < x.length → stripSpanPair (x.drop i ++ y) = none)
    (h2 : NoSpan y) : NoSpan (x ++ y) := by
  intro i
  rcases Nat.lt_or_ge i x.length with hlt | hge
  · rw [List.drop_append_of_le_length (Nat.le_of_lt hlt)]
    exact h1 i hlt
  · rw [List.drop_append_eq_append_drop, List.drop_eq_nil_of_le hge, List.nil_append]
    exact h2 (i - x.length)

/-- A string without `<` contributes no cleanup match, whatever follows. -/
theorem noSpanLt {x y : Str} (hx : '<' ∉ x) :
    ∀ i, i < x.length → stripSpanPair (x.drop i ++ y) = none := by
  intro i hi
  rw [List.drop_eq_getElem_cons hi]
  exact stripSpanPair_ne (fun e => hx (e ▸ List.getElem_mem hi))

end Odf

namespace Odf

/-- The per-character escape map the five sequential replaces of
`xmlEscape` implement (stated from the spec to compare against the
sequential-replace implementation). -/
def escChar (c : Char) : Str :=
  if c = '&' then "&amp;".toList
  else if c = '<' then "&lt;".toList
  else if c = '>' then "&gt;".toList
  else if c = '\x22' then "&quot;".toList
  else if c = '\x27' then "&apos;".toList
  else [c]

/-- `replaceCh` distributes over appends. -/
theorem replaceCh_append (c : Char) (r : Str) :
    ∀ (a b : Str), replaceCh c r (a ++ b) = replaceCh c r a ++ replaceCh c r b := by
  intro a b
  induction a with
  | nil => rfl
  | cons x xs ih =>
      rw [List.cons_append, replaceCh, replaceCh, ih, List.append_assoc]

/-- `xmlEscape` maps each character independently: the later replaces
never touch the output of an earlier one (`&amp;` contains none of
`< > " '`, and the entities introduced later contain no earlier
pattern either once the ampersand pass is done). -/
theorem xmlEscape_cons (c : Char) (s : Str) :
    xmlEscape (c :: s) = escChar c ++ xmlEscape s := by
  show xmlEscape ([c] ++ s) = escChar c ++ xmlEscape s
  rw [xmlEscape, replaceCh_append, replaceCh_append, replaceCh_append,
    replaceCh_append, replaceCh_append]
  have h1 : xmlEscape [c] = escChar c := by
    by_cases h₁ : c = '&'
    · subst h₁; rfl
    · by_cases h₂ : c = '<'
      · subst h₂; rfl
      · by_cases h₃ : c = '>'
        · subst h₃; rfl
        · by_cases h₄ : c = '\x22'
          · subst h₄; rfl
          · by_cases h₅ : c = '\x27'
            · subst h₅; rfl
            · rw [escChar, if_neg h₁, if_neg h₂, if_neg h₃, if_neg h₄, if_neg h₅]
              rw [xmlEscape]
              rw [show replaceCh '&' ("&amp;".toList) [c] = [c] from by
                rw [replaceCh, if_neg h₁]; rfl]
              rw [show replaceCh '<' ("&lt;".toList) [c] = [c] from by
                rw [replaceCh, if_neg h₂]; rfl]
              rw [show replaceCh '>' ("&gt;".toList) [c] = [c] from by
                rw [replaceCh, if_neg h₃]; rfl]
              rw [show replaceCh '\x22' ("&quot;".toList) [c] = [c] from by
                rw [replaceCh, if_neg h₄]; rfl]
              rw [replaceCh, if_neg h₅]
              rfl
  exact congrArg (· ++ xmlEscape s) h1

/-- The sequential-replace `xmlEscape` equals the per-character map:
every special character of the input appears in the output exactly as
its entity, and all other characters pass through. -/
theorem xmlEscape_eq_flatten : ∀ (s : Str), xmlEscape s = (s.map escChar).flatten := by
  intro s
  induction s with
  | nil => rfl
  | cons c cs ih => rw [xmlEscape_cons, ih, List.map_cons, List.flatten_cons]

/-- The escape of any string contains no raw `<`. -/
theorem xmlEscape_no_lt (s : Str) : '<' ∉ xmlEscape s := by
  rw [xmlEscape_eq_flatten]
  intro hmem
  rcases List.mem_flatten.mp hmem with ⟨piece, hp, hcp⟩
  rcases List.mem_map.mp hp with ⟨c, _, rfl⟩
  revert hcp
  rw [escChar]
  by_cases h₁ : c = '&'
  · subst h₁; simp
  · rw [if_neg h₁]
    by_cases h₂ : c = '<'
    · subst h₂; simp
    · rw [if_neg h₂]
      by_cases h₃ : c = '>'
      · subst h₃; simp
      · rw [if_neg h₃]
        by_cases h₄ : c = '\x22'
        · subst h₄; simp
        · rw [if_neg h₄]
          by_cases h₅ : c = '\x27'
          · subst h₅; simp
          · rw [if_neg h₅]
            intro hc
            rcases List.mem_singleton.mp hc with rfl
            exact absurd rfl h₂

end Odf

namespace Odf

/-- `NoSpan` is established by checking every suffix up to the length
(beyond it the suffix is empty and the empty check is among them). -/
theorem NoSpan_of_B {s : Str}
    (h : (List.range (s.length + 1)).all
      (fun i => (stripSpanPair (s.drop i)).isNone) = true) : NoSpan s := by
  intro i
  rcases Nat.lt_or_ge i (s.length + 1) with hlt | hge
  · have := List.all_eq_true.mp h i (List.mem_range.mpr hlt)
    exact Option.isNone_iff_eq_none.mp this
  · have h0 := List.all_eq_true.mp h s.length (List.mem_range.mpr (by omega))
    have e0 : s.drop s.length = [] := List.drop_eq_nil_of_le (Nat.le_refl _)
    rw [e0] at h0
    have ei : s.drop i = [] := List.drop_eq_nil_of_le (by omega)
    rw [ei]
    exact Option.isNone_iff_eq_none.mp h0

/-- Rendering the marker-free slice `Y` returns it unchanged for every
data scope and any positive fuel. -/
theorem renderY (n : Nat) (d : Data) :
    replaceAllF (n + 1) ("Y".toList) d = some ("Y".toList) := by
  rw [replaceAllF, sectionsGo_no_open (by decide)]
  rfl

/-- Looping over any item list with inner slice `Y` renders `Y` once per
item. -/
theorem renderItemsY (n : Nat) (d : Data) :
    ∀ (items : List Value),
      renderItems (replaceAllF (n + 1)) ("Y".toList) d items
        = some (items.map fun _ => "Y".toList) := by
  intro items
  induction items with
  | nil => rfl
  | cons item rest ih =>
      rw [renderItems, renderY n (childScope d item), ih]
      rfl

/-- The C2 template. -/
def c2T : Str := "<a>\x7b#x\x7dY\x7b/x\x7d</a>".toList

/-- Expected C2 render output for the value bound to `x`: arrays repeat
the inner `Y` once per element, other truthy values keep it once, falsy
values remove the whole section. -/
def c2Out : Value → Str
  | .vArr items => "<a>".toList ++ (items.map fun _ => "Y".toList).flatten ++ "</a>".toList
  | v => if truthy v then "<a>Y</a>".toList else "<a></a>".toList

/-- The falsy set of the specification: `false`, `null`,
undefined/absent, `0`, the empty string, the empty array. -/
def c2Falsy (v : Value) : Prop :=
  v = .vBool false ∨ v = .vNull ∨ v = .vUndefd ∨ v = .vNum 0 ∨
    v = .vStr [] ∨ v = .vArr []

/-- No open brace occurs in a wrapped string whose filling has none. -/
theorem noBrace_wrap {E : Str} (hE : '\x7b' ∉ E) :
    '\x7b' ∉ ("<a>".toList ++ E ++ "</a>".toList) := by
  intro h
  rcases List.mem_append.mp h with h | h
  · rcases List.mem_append.mp h with h | h
    · exact absurd h (by decide)
    · exact hE h
  · exact absurd h (by decide)

/-- After the section of C2 is resolved to a brace-free, span-free
expansion, the rest of the render pipeline passes the string through. -/
theorem c2_continue (n : Nat) (d : Data) (E : Str) (hnb : '\x7b' ∉ E)
    (hns : NoSpan ("<a>".toList ++ E ++ "</a>".toList)) :
    (replaceSectionsGo (replaceAllF (n + 1)) 999
        ("<a>".toList ++ E ++ "</a>".toList) d).map
      (fun t => removeEmptySpans (replaceSimple t d))
      = some ("<a>".toList ++ E ++ "</a>".toList) := by
  rw [sectionsGo_no_open (sectionOpenFind_none (noBrace_wrap hnb))]
  rw [Option.map_some']
  rw [replaceSimple_no_brace (noBrace_wrap hnb), removeEmptySpans_no_match hns]

/-- No open brace occurs in the repeated-`Y` expansion. -/
theorem noBrace_yrep (items : List Value) :
    '\x7b' ∉ (items.map fun _ => "Y".toList).flatten := by
  intro h
  rcases List.mem_flatten.mp h with ⟨p, hp, hcp⟩
  rcases List.mem_map.mp hp with ⟨_, _, rfl⟩
  exact absurd hcp (by decide)

/-- No cleanup match occurs in the repeated-`Y` C2 output. -/
theorem noSpan_yrep (items : List Value) :
    NoSpan ("<a>".toList ++ (items.map fun _ => "Y".toList).flatten ++ "</a>".toList) := by
  rw [List.append_assoc]
  apply NoSpan_append
  · intro i hi
    match i, hi with
    | 0, _ => rfl
    | 1, _ => exact stripSpanPair_ne (by decide)
    | 2, _ => exact stripSpanPair_ne (by decide)
  · apply NoSpan_append
    · intro i hi
      refine noSpanLt ?_ i hi
      intro h
      rcases List.mem_flatten.mp h with ⟨p, hp, hcp⟩
      rcases List.mem_map.mp hp with ⟨_, _, rfl⟩
      exact absurd hcp (by decide)
    · exact NoSpan_of_B (by decide)

end Odf

namespace Odf

/-- The C2 render computed for every value bound to `x`, with any fuel
of at least 2. -/
theorem c2_main (n : Nat) (v : Value) :
    replaceAllF (n + 2) c2T [("x".toList, v)] = some (c2Out v) := by
  rw [show n + 2 = (n + 1) + 1 from rfl, replaceAllF,
    show (1000 : Nat) = 999 + 1 from rfl,
    sectionsGo_step (replaceAllF (n + 1)) 999 c2T [("x".toList, v)]
      3 ("x".toList) 8 (3, 7) (8, 12)
      (by decide) (by decide) (by decide) (by decide)]
  have hres : resolveValue [("x".toList, v)] ("x".toList) = v := rfl
  rw [hres]
  have hY : slice c2T 7 8 = "Y".toList := by decide
  have hBefore : slice c2T 0 3 = "<a>".toList := by decide
  have hAfter : List.drop 12 c2T = "</a>".toList := by decide
  cases v with
  | vArr items =>
      dsimp only
      rw [hY, hBefore, hAfter, renderItemsY n _ items, Option.map_some']
      exact c2_continue n _ _ (noBrace_yrep items) (noSpan_yrep items)
  | vBool b =>
      cases b with
      | false =>
          dsimp only
          rw [if_neg (by decide), hBefore, hAfter]
          exact c2_continue n _ [] (by decide) (NoSpan_of_B (by decide))
      | true =>
          dsimp only
          rw [if_pos (by decide), hY, renderY n _, hBefore, hAfter]
          exact c2_continue n _ ("Y".toList) (by decide) (NoSpan_of_B (by decide))
  | vNull =>
      dsimp only
      rw [if_neg (by decide), hBefore, hAfter]
      exact c2_continue n _ [] (by decide) (NoSpan_of_B (by decide))
  | vUndefd =>
      dsimp only
      rw [if_neg (by decide), hBefore, hAfter]
      exact c2_continue n _ [] (by decide) (NoSpan_of_B (by decide))
  | vObj fs =>
      dsimp only
      rw [if_pos (show truthy (Value.vObj fs) = true from rfl), hY, renderY n _,
        hBefore, hAfter]
      exact c2_continue n _ ("Y".toList) (by decide) (NoSpan_of_B (by decide))
  | vStr s =>
      cases s with
      | nil =>
          dsimp only
          rw [if_neg (by decide), hBefore, hAfter]
          exact c2_continue n _ [] (by decide) (NoSpan_of_B (by decide))
      | cons c cs =>
          dsimp only
          rw [if_pos (by simp [truthy]), hY, renderY n _, hBefore, hAfter]
          have := c2_continue n [("x".toList, Value.vStr (c :: cs))] ("Y".toList)
            (by decide) (NoSpan_of_B (by decide))
          rw [this]
          rfl
  | vNum m =>
      by_cases hm : m = 0
      · subst hm
        dsimp only
        rw [if_neg (by decide), hBefore, hAfter]
        exact c2_continue n _ [] (by decide) (NoSpan_of_B (by decide))
      · dsimp only
        rw [if_pos (by simp [truthy, hm]), hY, renderY n _, hBefore, hAfter]
        have := c2_continue n [("x".toList, Value.vNum m)] ("Y".toList)
          (by decide) (NoSpan_of_B (by decide))
        rw [this, show c2Out (Value.vNum m) = "<a>Y</a>".toList from by
          simp only [c2Out]
          rw [if_pos (by simp [truthy, hm])]]
        exact congrArg some (by decide)

end Odf

namespace Odf

/-- C2: for the section `\x7b#x\x7dY\x7b/x\x7d` inside `<a>...</a>`, render removes
the entire section exactly when the value bound to `x` is in the falsy set
(false, null, undefined/absent, 0, empty string, empty array) and keeps or
repeats the inner content for every other value; in particular
`x = false` and `x = []` give `<a></a>`, `x = 1` gives `<a>Y</a>`, the
string `"0"` is truthy, and an absent binding removes the section. -/
theorem c2_falsy_removal :
    (∀ v : Value,
      Renders c2T [("x".toList, v)] (c2Out v) ∧
        (c2Out v = "<a></a>".toList ↔ c2Falsy v)) ∧
    Renders c2T [] ("<a></a>".toList) := by
  constructor
  · intro v
    refine ⟨⟨2, c2_main 0 v⟩, ?_⟩
    cases v with
    | vArr items =>
        cases items with
        | nil =>
            constructor
            · intro _
              right; right; right; right; right; rfl
            · intro _
              decide
        | cons a as =>
            constructor
            · intro h
              have h4 : ('Y' : Char) = '<' :=
                congrArg (fun l => l.getD 3 ' ') h
              exact absurd h4 (by decide)
            · rintro (h | h | h | h | h | h) <;> cases h
    | vBool b =>
        cases b with
        | false =>
            constructor
            · intro _
              left; rfl
            · intro _
              decide
        | true =>
            constructor
            · intro h
              exact absurd h (by decide)
            · rintro (h | h | h | h | h | h) <;> cases h
    | vNull =>
        exact ⟨fun _ => Or.inr (Or.inl rfl), fun _ => by decide⟩
    | vUndefd =>
        exact ⟨fun _ => Or.inr (Or.inr (Or.inl rfl)), fun _ => by decide⟩
    | vObj fs =>
        constructor
        · intro h
          have h4 : ('Y' : Char) = '<' :=
            congrArg (fun l => l.getD 3 ' ') h
          exact absurd h4 (by decide)
        · rintro (h | h | h | h | h | h) <;> cases h
    | vStr s =>
        cases s with
        | nil =>
            exact ⟨fun _ => Or.inr (Or.inr (Or.inr (Or.inr (Or.inl rfl)))),
              fun _ => by decide⟩
        | cons c cs =>
            constructor
            · intro h
              have h' : ("<a>Y</a>".toList : Str) = "<a></a>".toList := h
              exact absurd h' (by decide)
            · rintro (h | h | h | h | h | h) <;> cases h
    | vNum m =>
        by_cases hm : m = 0
        · subst hm
          exact ⟨fun _ => Or.inr (Or.inr (Or.inr (Or.inl rfl))), fun _ => by decide⟩
        · constructor
          · intro h
            rw [show c2Out (Value.vNum m) = "<a>Y</a>".toList from by
              simp only [c2Out]
              rw [if_pos (by simp [truthy, hm])]] at h
            exact absurd h (by decide)
          · rintro (h | h | h | h | h | h)
            · cases h
            · cases h
            · cases h
            · injection h with h'
              exact absurd h' hm
            · cases h
            · cases h
  · exact ⟨1, by decide⟩

end Odf

namespace Odf

/-- C4: section opens are paired with their close by depth counting of
same-named open/close occurrences, so same-named nesting pairs the outer
open with the last close (the depth count on
`\x7b#a\x7d\x7b#a\x7dX\x7b/a\x7d\x7b/a\x7d` from position 4 yields position 13, and the
two-element loop over that template renders `XXXX`); and for distinct
nested sections `\x7b#a\x7d\x7b#b\x7dX\x7b/b\x7d\x7b/a\x7d` renders to the empty string
when `a` is truthy and `b` falsy, and to `X` when both are truthy. -/
theorem c4_nested_sections :
    Renders ("\x7b#a\x7d\x7b#b\x7dX\x7b/b\x7d\x7b/a\x7d".toList)
      [("a".toList, .vBool true), ("b".toList, .vBool false)] [] ∧
    Renders ("\x7b#a\x7d\x7b#b\x7dX\x7b/b\x7d\x7b/a\x7d".toList)
      [("a".toList, .vBool true), ("b".toList, .vBool true)] ("X".toList) ∧
    findMatchingClose ("\x7b#a\x7d\x7b#a\x7dX\x7b/a\x7d\x7b/a\x7d".toList) ("a".toList) 4
      = some 13 ∧
    Renders ("\x7b#a\x7d\x7b#a\x7dX\x7b/a\x7d\x7b/a\x7d".toList)
      [("a".toList, .vArr [.vObj [], .vObj []])] ("XXXX".toList) :=
  ⟨⟨3, by decide⟩, ⟨3, by decide⟩, by decide, ⟨3, by decide⟩⟩

/-- C5: section marker boundaries are expanded outward through enclosing
tag pairs that wrap only the marker, repeatedly and independently for the
open and the close marker, so removing a falsy section leaves no orphaned
wrappers: the spec example renders to `<p></p>`, and a doubly wrapped
pair (span inside paragraph on each side) is removed entirely when falsy
and keeps exactly the inner content when truthy. -/
theorem c5_boundary_expansion :
    Renders ("<p><span>\x7b#s\x7d</span>Y<span>\x7b/s\x7d</span></p>".toList)
      [("s".toList, .vBool false)] ("<p></p>".toList) ∧
    Renders ("<p><span>\x7b#s\x7d</span></p>Y<p><span>\x7b/s\x7d</span></p>".toList)
      [("s".toList, .vBool false)] [] ∧
    Renders ("<p><span>\x7b#s\x7d</span></p>Y<p><span>\x7b/s\x7d</span></p>".toList)
      [("s".toList, .vNum 1)] ("Y".toList) :=
  ⟨⟨3, by decide⟩, ⟨3, by decide⟩, ⟨3, by decide⟩⟩

/-- C6: a sequence-valued section repeats the inner slice once per
element in order, each iteration rendered against the element merged over
the active scope with item keys winning for that iteration only, and
scalar elements reusing the active scope unmerged: the spec example
renders `P:AP:B`; an item that also defines `parentKey` wins only for its
own iteration (`Q:AP:B`); scalar items reuse the parent scope (`PP`). -/
theorem c6_loop_scope :
    Renders ("\x7b#items\x7d\x7bparentKey\x7d:\x7bitemKey\x7d\x7b/items\x7d".toList)
      [("parentKey".toList, .vStr ("P".toList)),
       ("items".toList, .vArr [.vObj [("itemKey".toList, .vStr ("A".toList))],
                               .vObj [("itemKey".toList, .vStr ("B".toList))]])]
      ("P:AP:B".toList) ∧
    Renders ("\x7b#items\x7d\x7bparentKey\x7d:\x7bitemKey\x7d\x7b/items\x7d".toList)
      [("parentKey".toList, .vStr ("P".toList)),
       ("items".toList, .vArr
         [.vObj [("parentKey".toList, .vStr ("Q".toList)),
                 ("itemKey".toList, .vStr ("A".toList))],
          .vObj [("itemKey".toList, .vStr ("B".toList))]])]
      ("Q:AP:B".toList) ∧
    Renders ("\x7b#items\x7d\x7bparentKey\x7d\x7b/items\x7d".toList)
      [("parentKey".toList, .vStr ("P".toList)),
       ("items".toList, .vArr [.vNum 1, .vNum 2])]
      ("PP".toList) :=
  ⟨⟨3, by decide⟩, ⟨3, by decide⟩, ⟨3, by decide⟩⟩

/-- C7 counterexample: the claim also asserts that an unmatched open
marker is inert, every other marker — including later well-formed
sections — still being resolved. On `\x7b#broken\x7d\x7b#ok\x7dB\x7b/ok\x7d` with
`broken` truthy and `ok` falsy that would give `\x7b#broken\x7d`, but the
section loop breaks at the first unmatched open and leaves the later
well-formed `ok` section unresolved, so the code does not render the
claimed output. -/
theorem c7_counterexample :
    ¬ Renders ("\x7b#broken\x7d\x7b#ok\x7dB\x7b/ok\x7d".toList)
      [("broken".toList, .vBool true), ("ok".toList, .vBool false)]
      ("\x7b#broken\x7d".toList) := by
  intro hclaim
  have hact : Renders ("\x7b#broken\x7d\x7b#ok\x7dB\x7b/ok\x7d".toList)
      [("broken".toList, .vBool true), ("ok".toList, .vBool false)]
      ("\x7b#broken\x7d\x7b#ok\x7dB\x7b/ok\x7d".toList) := ⟨1, by decide⟩
  exact absurd (rendersDet hclaim hact) (by decide)

/-- C7 as amended: an unmatched `\x7b#name\x7d` throws no exception and is left
as literal text — `render("\x7b#broken\x7dtext</p>", broken: true)` returns the
input unchanged — and simple placeholders elsewhere are still resolved;
but section scanning stops at the first unmatched open, so well-formed
sections at or after it are left unprocessed, while sections strictly
before it are still resolved. -/
theorem c7_amended :
    Renders ("\x7b#broken\x7dtext</p>".toList) [("broken".toList, .vBool true)]
      ("\x7b#broken\x7dtext</p>".toList) ∧
    Renders ("\x7b#broken\x7dA\x7bx\x7d\x7b#ok\x7dB\x7b/ok\x7d".toList)
      [("broken".toList, .vBool true), ("x".toList, .vStr ("V".toList)),
       ("ok".toList, .vBool false)]
      ("\x7b#broken\x7dAV\x7b#ok\x7dB\x7b/ok\x7d".toList) ∧
    Renders ("\x7b#ok\x7dB\x7b/ok\x7d\x7b#broken\x7dt".toList)
      [("ok".toList, .vBool false), ("broken".toList, .vBool true)]
      ("\x7b#broken\x7dt".toList) :=
  ⟨⟨2, by decide⟩, ⟨2, by decide⟩, ⟨2, by decide⟩⟩

/-- The fragmentation-invariance property of C1 at one input: healing and
then rendering yields the same rendered text content as rendering the
document in which the markers appear contiguously. At the counterexample
input every marker is already contiguous (the N = 1 splitting of the
claim), so the fragmented and the contiguous document coincide and the
claim asserts exactly this equality of text contents. -/
def FragInvariantAt (x : Str) (d : Data) : Prop :=
  ∀ r₁ r₂, Renders (healPlaceholders x) d r₁ → Renders x d r₂ →
    textContent r₁ = textContent r₂

/-- C1 counterexample: on
`<q> \x7b#s\x7d<text:span></text:span></q>j\x7b/s\x7d` with `s` falsy, healing
first removes the empty span, which lets the section boundary expand over
the whole `<q>` element and absorb the leading space, rendering to the
empty string; rendering the document directly leaves the empty span in
place, which blocks the boundary expansion, and the falsy removal leaves
`<q> ` behind — text content `" "` versus `""`. -/
theorem c1_counterexample :
    ¬ FragInvariantAt ("<q> \x7b#s\x7d<text:span></text:span></q>j\x7b/s\x7d".toList)
      [("s".toList, .vBool false)] := by
  intro hinv
  have h₁ : Renders
      (healPlaceholders ("<q> \x7b#s\x7d<text:span></text:span></q>j\x7b/s\x7d".toList))
      [("s".toList, .vBool false)] [] := ⟨1, by decide⟩
  have h₂ : Renders ("<q> \x7b#s\x7d<text:span></text:span></q>j\x7b/s\x7d".toList)
      [("s".toList, .vBool false)] ("<q> ".toList) := ⟨1, by decide⟩
  exact absurd (hinv _ _ h₁ h₂) (by decide)

/-- C3 counterexample: heal is not idempotent. The cleanup of empty
`text:span` pairs is a single left-to-right pass, so of two nested empty
spans the first heal removes only the inner one; the second heal removes
the newly exposed outer pair. -/
theorem c3_counterexample :
    healPlaceholders (healPlaceholders
        ("\x7bx\x7d<text:span><text:span></text:span></text:span>".toList))
      ≠ healPlaceholders
        ("\x7bx\x7d<text:span><text:span></text:span></text:span>".toList) := by
  decide

end Odf

namespace Odf

/-- The C9 failing input: a template whose data re-injects section
markers through substitution. -/
def c9xml : Str := "\x7b#a\x7d\x7bv\x7d\x7b/a\x7d".toList

/-- The string the `v` substitution injects: a `b`-section wrapped around
the original template. -/
def c9V : Str := "\x7b#b\x7d\x7b#a\x7d\x7bv\x7d\x7b/a\x7d\x7b/b\x7d".toList

/-- The C9 failing data. -/
def c9data : Data :=
  [("a".toList, .vBool true), ("b".toList, .vBool true), ("v".toList, .vStr c9V)]

/-- Rendering the section-free inner slice of the C9 input substitutes
`v` and returns the injected wrapper, for any positive fuel. -/
theorem c9_inner (n : Nat) :
    replaceAllF (n + 1) ("\x7bv\x7d".toList) c9data = some c9V := by
  rw [replaceAllF, sectionsGo_no_open (by decide)]
  rfl

/-- C9 is violated by the code: on the failing input the render
recursion reaches itself with identical arguments, so the source
`replaceAll` overflows the stack rather than terminating — the model
returns `none` at every fuel. The per-call safety counter caps only the
rescan loop; the recursion into inner slices is on slices of the
*current* (grown) string, which substitution-injected markers keep as
large as the original call's input. -/
theorem c9_diverges : ∀ n, replaceAllF n c9xml c9data = none := by
  intro n
  induction n using Nat.strong_induction_on with
  | _ n ih =>
      match n with
      | 0 => rfl
      | 1 => decide
      | (m + 2) =>
          have hIH : replaceAllF (m + 1) c9xml c9data = none := ih (m + 1) (by omega)
          rw [show m + 2 = (m + 1) + 1 from rfl, replaceAllF,
            show (1000 : Nat) = 999 + 1 from rfl,
            sectionsGo_step (replaceAllF (m + 1)) 999 c9xml c9data
              0 ("a".toList) 7 (0, 4) (7, 11)
              (by decide) (by decide) (by decide) (by decide),
            show resolveValue c9data ("a".toList) = Value.vBool true from rfl]
          dsimp only
          rw [if_pos (show truthy (Value.vBool true) = true from rfl),
            show childScope c9data (Value.vBool true) = c9data from rfl,
            show slice c9xml 4 7 = "\x7bv\x7d".toList from by decide,
            c9_inner m]
          dsimp only
          rw [show slice c9xml 0 0 = ([] : Str) from rfl,
            show List.drop 11 c9xml = ([] : Str) from by decide,
            List.nil_append, List.append_nil,
            show (999 : Nat) = 998 + 1 from rfl,
            sectionsGo_step (replaceAllF (m + 1)) 998 c9V c9data
              0 ("b".toList) 15 (0, 4) (15, 19)
              (by decide) (by decide) (by decide) (by decide),
            show resolveValue c9data ("b".toList) = Value.vBool true from rfl]
          dsimp only
          rw [if_pos (show truthy (Value.vBool true) = true from rfl),
            show childScope c9data (Value.vBool true) = c9data from rfl,
            show slice c9V 4 15 = c9xml from by decide,
            hIH]
          rfl

end Odf

namespace Odf

/-- Wrapping a `<`-free string in `<a>...</a>` gives a cleanup-free
string. -/
theorem noSpan_wrap {E : Str} (hE : '<' ∉ E) :
    NoSpan ("<a>".toList ++ E ++ "</a>".toList) := by
  rw [List.append_assoc]
  apply NoSpan_append
  · intro i hi
    match i, hi with
    | 0, _ => rfl
    | 1, _ => exact stripSpanPair_ne (by decide)
    | 2, _ => exact stripSpanPair_ne (by decide)
  · exact NoSpan_append (noSpanLt hE) (NoSpan_of_B (by decide))

/-- The render of the simple template `<a>\x7bx\x7d</a>` against `x = v`:
the section pass finds no open marker, the simple pass substitutes the
escaped stringification of `v` (empty for null/undefined), and the
cleanup pass leaves the result unchanged. -/
theorem renderSimpleX (n : Nat) (v : Value) :
    replaceAllF (n + 1) ("<a>\x7bx\x7d</a>".toList) [("x".toList, v)]
      = some ("<a>".toList ++
          (if isNullish v then [] else xmlEscape (jsToString v)) ++ "</a>".toList) := by
  rw [replaceAllF, sectionsGo_no_open (by decide), Option.map_some']
  have hsimple : replaceSimple ("<a>\x7bx\x7d</a>".toList) [("x".toList, v)]
      = "<a>".toList ++
          (if isNullish v then [] else xmlEscape (jsToString v)) ++ "</a>".toList := rfl
  rw [hsimple]
  cases hnull : isNullish v with
  | true =>
      rw [if_pos rfl]
      exact congrArg some (removeEmptySpans_no_match (NoSpan_of_B (by decide)))
  | false =>
      rw [if_neg (by simp)]
      exact congrArg some
        (removeEmptySpans_no_match (noSpan_wrap (xmlEscape_no_lt (jsToString v))))

/-- C10: a simple marker `\x7bx\x7d` substitutes the XML-escaped string
conversion of the resolved value whenever that value is neither null nor
undefined — in particular `false` renders as `false` and `0` renders as
`0` — and only null, undefined, and lookups that traverse a non-object
or a missing key render as the empty string. -/
theorem c10_simple_semantics :
    (∀ v : Value, Renders ("<a>\x7bx\x7d</a>".toList) [("x".toList, v)]
        ("<a>".toList ++
          (if isNullish v then [] else xmlEscape (jsToString v)) ++ "</a>".toList)) ∧
    Renders ("<a>\x7bx\x7d</a>".toList) [("x".toList, .vBool false)]
      ("<a>false</a>".toList) ∧
    Renders ("<a>\x7bx\x7d</a>".toList) [("x".toList, .vNum 0)]
      ("<a>0</a>".toList) ∧
    Renders ("<a>\x7bp.q\x7d</a>".toList) [("p".toList, .vNum 5)]
      ("<a></a>".toList) ∧
    Renders ("<a>\x7bp.q\x7d</a>".toList) [("p".toList, .vObj [])]
      ("<a></a>".toList) :=
  ⟨fun v => ⟨1, renderSimpleX 0 v⟩, ⟨1, by decide⟩, ⟨1, by decide⟩,
    ⟨1, by decide⟩, ⟨1, by decide⟩⟩

/-- C8: for every substituted string value, the render of
`<a>\x7bx\x7d</a>` is the value with each of the five characters
`& < > " '` replaced by its entity, spliced between the untouched
surrounding text; `xmlEscape` equals the per-character escape map, so the
output contains only the escaped forms of those characters; and the
repo's own example escapes as expected. -/
theorem c8_escaping :
    (∀ v : Str,
      Renders ("<a>\x7bx\x7d</a>".toList) [("x".toList, .vStr v)]
        ("<a>".toList ++ xmlEscape v ++ "</a>".toList) ∧
      xmlEscape v = (v.map escChar).flatten) ∧
    Renders ("<a>\x7bx\x7d</a>".toList)
      [("x".toList, .vStr ("Smith & Jones <LLC>".toList))]
      ("<a>Smith &amp; Jones &lt;LLC&gt;</a>".toList) := by
  constructor
  · intro v
    exact ⟨⟨1, renderSimpleX 0 (.vStr v)⟩, xmlEscape_eq_flatten v⟩
  · exact ⟨1, by decide⟩

end Odf

namespace Odf

/-- Tokenization is lossless: re-concatenating all segment contents gives
back the input, for any sufficient fuel. -/
theorem join_tokenizeGo :
    ∀ (f : Nat) (s : Str), s.length ≤ f →
      ((tokenizeGo f s).map Segment.content).flatten = s := by
  intro f
  induction f with
  | zero =>
      intro s hs
      rcases List.eq_nil_of_length_eq_zero (Nat.le_zero.mp hs) with rfl
      rfl
  | succ f ih =>
      intro s hs
      cases s with
      | nil => rfl
      | cons c cs =>
          rw [tokenizeGo]
          by_cases hc : c = '<'
          · rw [if_pos hc]
            cases hidx : idxOfCh '>' (c :: cs) with
            | none => simp [Segment.content]
            | some j =>
                have hdrop : ((c :: cs).drop (j + 1)).length ≤ f := by
                  rw [List.length_drop]
                  simp only [List.length_cons] at hs ⊢
                  omega
                simp only [List.map_cons, List.flatten_cons, Segment.content,
                  ih _ hdrop]
                exact List.take_append_drop (j + 1) (c :: cs)
          · rw [if_neg hc]
            cases hidx : idxOfCh '<' (c :: cs) with
            | none => simp [Segment.content]
            | some j =>
                have hj : 1 ≤ j := by
                  rw [idxOfCh, if_neg hc] at hidx
                  rcases Option.map_eq_some'.mp hidx with ⟨j', _, rfl⟩
                  omega
                have hdrop : ((c :: cs).drop j).length ≤ f := by
                  rw [List.length_drop]
                  simp only [List.length_cons] at hs ⊢
                  omega
                simp only [List.map_cons, List.flatten_cons, Segment.content,
                  ih _ hdrop]
                exact List.take_append_drop j (c :: cs)

/-- Tokenization is lossless. -/
theorem join_tokenize (s : Str) :
    ((tokenize s).map Segment.content).flatten = s :=
  join_tokenizeGo s.length s (Nat.le_refl _)

/-- A healer pass over placeholders that are all contiguous leaves the
segment list unchanged. -/
theorem foldl_healStep_id (charMap : List CharOrigin) :
    ∀ (phs : List (Nat × Nat × Str)) (segs : List Segment),
      (∀ ph ∈ phs,
        (charMap.getD ph.1 (CharOrigin.mk 0 0)).segIndex =
          (charMap.getD ph.2.1 (CharOrigin.mk 0 0)).segIndex) →
      phs.foldl (healStep charMap) segs = segs := by
  intro phs
  induction phs with
  | nil => intro segs _; rfl
  | cons ph rest ih =>
      intro segs h
      rw [List.foldl_cons]
      have hstep : healStep charMap segs ph = segs := by
        rw [healStep]
        exact if_pos (h ph (List.mem_cons_self ph rest))
      rw [hstep]
      exact ih segs (fun q hq => h q (List.mem_cons_of_mem ph hq))

/-- Every placeholder the locator finds in `s` has its first and last
ribbon character inside the same text segment. -/
def allContiguous (s : Str) : Bool :=
  (findPlaceholders (buildRibbon (tokenize s)).1).all fun ph =>
    ((buildRibbon (tokenize s)).2.getD ph.1 (CharOrigin.mk 0 0)).segIndex
      == ((buildRibbon (tokenize s)).2.getD ph.2.1 (CharOrigin.mk 0 0)).segIndex

/-- A string whose placeholders are all contiguous and on which the
empty-span cleanup is a no-op is a fixed point of heal: the healer loop
does not touch any segment, the rebuild is lossless, and the cleanup
changes nothing. -/
theorem heal_fixed {y : Str} (hc : allContiguous y = true)
    (hr : removeEmptySpans y = y) : healPlaceholders y = y := by
  have hAll : ∀ ph ∈ (findPlaceholders (buildRibbon (tokenize y)).1).reverse,
      ((buildRibbon (tokenize y)).2.getD ph.1 (CharOrigin.mk 0 0)).segIndex =
        ((buildRibbon (tokenize y)).2.getD ph.2.1 (CharOrigin.mk 0 0)).segIndex := by
    intro ph hph
    exact eq_of_beq (List.all_eq_true.mp hc ph (List.mem_reverse.mp hph))
  rw [healPlaceholders]
  cases hphs : (findPlaceholders (buildRibbon (tokenize y)).1).isEmpty with
  | true => rfl
  | false =>
      dsimp only
      rw [foldl_healStep_id _ _ _ hAll, join_tokenize, hr]
      rfl

/-- C3 as amended: heal is idempotent on every input whose healed output
has all its placeholders contiguous within one text segment and retains
no empty `text:span` pair (no-op cleanup); in general a second heal can
strictly remove more, because the single-pass empty-span cleanup can
expose a nested empty pair (see the counterexample). -/
theorem c3_amended :
    ∀ (x : Str), allContiguous (healPlaceholders x) = true →
      removeEmptySpans (healPlaceholders x) = healPlaceholders x →
      healPlaceholders (healPlaceholders x) = healPlaceholders x :=
  fun _ hc hr => heal_fixed hc hr

/-- C3 amended, witnessed at a concrete input. -/
theorem c3_amended_witness :
    allContiguous (healPlaceholders ("<a>\x7bx\x7d</a>".toList)) = true ∧
    removeEmptySpans (healPlaceholders ("<a>\x7bx\x7d</a>".toList))
      = healPlaceholders ("<a>\x7bx\x7d</a>".toList) ∧
    healPlaceholders (healPlaceholders ("<a>\x7bx\x7d</a>".toList))
      = healPlaceholders ("<a>\x7bx\x7d</a>".toList) :=
  ⟨by decide, by decide, c3_amended ("<a>\x7bx\x7d</a>".toList) (by decide) (by decide)⟩

end Odf

namespace Odf

/-- The tokenizer is fuel-insensitive above the input length. -/
theorem tokenizeGo_fuel :
    ∀ (f g : Nat) (s : Str), s.length ≤ f → s.length ≤ g →
      tokenizeGo f s = tokenizeGo g s := by
  intro f
  induction f with
  | zero =>
      intro g s hf hg
      rcases List.eq_nil_of_length_eq_zero (Nat.le_zero.mp hf) with rfl
      cases g <;> rfl
  | succ f ih =>
      intro g s hf hg
      cases s with
      | nil => cases g <;> rfl
      | cons c cs =>
          cases g with
          | zero => simp at hg
          | succ g =>
              rw [tokenizeGo, tokenizeGo]
              by_cases hc : c = '<'
              · rw [if_pos hc, if_pos hc]
                cases hidx : idxOfCh '>' (c :: cs) with
                | none => rfl
                | some j =>
                    have hdl : ((c :: cs).drop (j + 1)).length ≤ f := by
                      simp only [List.length_drop, List.length_cons]
                      simp only [List.length_cons] at hf
                      omega
                    have hdg : ((c :: cs).drop (j + 1)).length ≤ g := by
                      simp only [List.length_drop, List.length_cons]
                      simp only [List.length_cons] at hg
                      omega
                    dsimp only
                    rw [ih g _ hdl hdg]
              · rw [if_neg hc, if_neg hc]
                cases hidx : idxOfCh '<' (c :: cs) with
                | none => rfl
                | some j =>
                    have hj : 1 ≤ j := by
                      rw [idxOfCh, if_neg hc] at hidx
                      rcases Option.map_eq_some'.mp hidx with ⟨j', _, rfl⟩
                      omega
                    have hdl : ((c :: cs).drop j).length ≤ f := by
                      simp only [List.length_drop, List.length_cons]
                      simp only [List.length_cons] at hf
                      omega
                    have hdg : ((c :: cs).drop j).length ≤ g := by
                      simp only [List.length_drop, List.length_cons]
                      simp only [List.length_cons] at hg
                      omega
                    dsimp only
                    rw [ih g _ hdl hdg]

/-- Any sufficient fuel computes `tokenize`. -/
theorem tokenizeGo_eq {f : Nat} {s : Str} (hf : s.length ≤ f) :
    tokenizeGo f s = tokenize s :=
  tokenizeGo_fuel f s.length s hf (Nat.le_refl _)

/-- Character search passes over a prefix that does not contain it. -/
theorem idxOfCh_append {c : Char} {a : Str} (ha : c ∉ a) (b : Str) :
    idxOfCh c (a ++ b) = (idxOfCh c b).map (· + a.length) := by
  induction a with
  | nil =>
      rw [List.nil_append]
      cases idxOfCh c b <;> simp
  | cons x xs ih =>
      have hx : ¬(x = c) := fun e => ha (e ▸ List.mem_cons_self x xs)
      rw [List.cons_append, idxOfCh, if_neg hx,
        ih (fun h => ha (List.mem_cons_of_mem x h))]
      cases idxOfCh c b <;> simp
      omega

/-- The tokenizer cuts one complete tag off the front. -/
theorem tokenize_tag (tag : Str) (hno : '>' ∉ tag) (rest : Str) :
    tokenize (('<' :: tag ++ ['>']) ++ rest)
      = .tag ('<' :: tag ++ ['>']) :: tokenize rest := by
  have hre : ('<' :: tag ++ ['>']) ++ rest = '<' :: (tag ++ '>' :: rest) := by
    simp
  have hlen : ('<' :: (tag ++ '>' :: rest)).length = (rest.length + tag.length + 1) + 1 := by
    simp only [List.length_cons, List.length_append]
    omega
  rw [tokenize, hre, hlen, tokenizeGo, if_pos rfl]
  have hidx : idxOfCh '>' ('<' :: (tag ++ '>' :: rest)) = some (tag.length + 1) := by
    rw [idxOfCh, if_neg (by decide), idxOfCh_append hno, idxOfCh, if_pos rfl]
    simp
  rw [hidx]
  dsimp only
  have htake : ('<' :: (tag ++ '>' :: rest)).take (tag.length + 1 + 1)
      = '<' :: tag ++ ['>'] := by
    rw [List.take_succ_cons, List.take_append 1]
    rfl
  have hdrop : ('<' :: (tag ++ '>' :: rest)).drop (tag.length + 1 + 1) = rest := by
    rw [List.drop_succ_cons, List.drop_append 1]
    rfl
  rw [htake, hdrop, tokenizeGo_eq (by omega)]

/-- The tokenizer cuts one complete text run off the front when a tag
follows. -/
theorem tokenize_text (a : Str) (ha : '<' ∉ a) (c : Char) (a' : Str)
    (hcons : a = c :: a') (r' : Str) :
    tokenize (a ++ '<' :: r') = .text a :: tokenize ('<' :: r') := by
  subst hcons
  have hlen : ((c :: a') ++ '<' :: r').length = (r'.length + 1 + a'.length) + 1 := by
    simp only [List.length_cons, List.length_append]
    omega
  have hc : ¬(c = '<') := fun e => ha (e ▸ List.mem_cons_self c a')
  rw [tokenize, hlen, List.cons_append, tokenizeGo, if_neg hc]
  have hidx : idxOfCh '<' (c :: (a' ++ '<' :: r')) = some (a'.length + 1) := by
    rw [idxOfCh, if_neg hc,
      idxOfCh_append (fun h => ha (List.mem_cons_of_mem c h)), idxOfCh, if_pos rfl]
    simp
  rw [hidx]
  dsimp only
  have htake : (c :: (a' ++ '<' :: r')).take (a'.length + 1) = c :: a' := by
    rw [List.take_succ_cons, List.take_left]
  have hdrop : (c :: (a' ++ '<' :: r')).drop (a'.length + 1) = '<' :: r' := by
    rw [List.drop_succ_cons, List.drop_left]
  rw [htake, hdrop, tokenizeGo_eq (by simp only [List.length_cons]; omega)]

/-- `takeWhile` stops exactly at the first failing element. -/
theorem takeWhile_append_stop {p : Char → Bool} :
    ∀ (a : Str), a.all p = true → ∀ (c : Char), p c = false → ∀ (t : Str),
      (a ++ c :: t).takeWhile p = a := by
  intro a
  induction a with
  | nil =>
      intro _ c hc t
      rw [List.nil_append, List.takeWhile_cons_of_neg (by simp [hc])]
  | cons x xs ih =>
      intro ha c hc t
      rcases List.all_eq_true.mp ha x (List.mem_cons_self x xs) with hx
      rw [List.cons_append, List.takeWhile_cons_of_pos hx,
        ih (List.all_eq_true.mpr fun y hy =>
          List.all_eq_true.mp ha y (List.mem_cons_of_mem x hy)) c hc t]

end Odf

namespace Odf

/-- The C1 marker text: a simple placeholder over the identifier `name`. -/
def c1M (name : Str) : Str := '\x7b' :: name ++ ['\x7d']

/-- The fragmented C1 document: the marker characters split at position
`j` across two sibling `text:span` segments. -/
def c1Frag (name : Str) (j : Nat) : Str :=
  "<text:span>".toList ++ (c1M name).take j ++ "</text:span><text:span>".toList
    ++ (c1M name).drop j ++ "</text:span>".toList

/-- The contiguous C1 document. -/
def c1Contig (name : Str) : Str :=
  "<text:span>".toList ++ c1M name ++ "</text:span>".toList

/-- A valid placeholder identifier: nonempty, starts with a letter or
underscore, continues with letters, digits, underscores, or dots. -/
def identOk : Str → Bool
  | [] => false
  | c :: cs => isIdentStart c && cs.all isIdentCont

/-- An identifier start character is also a continuation character. -/
theorem identStart_cont {c : Char} (h : isIdentStart c = true) :
    isIdentCont c = true := by
  rw [isIdentStart] at h
  rw [isIdentCont, Char.isAlphanum]
  rcases Bool.or_eq_true_iff.mp h with h' | h' <;> simp [h']

/-- Every character of the marker is a brace or an identifier
continuation character. -/
theorem c1M_chars {name : Str} (h : identOk name = true) :
    ∀ c ∈ c1M name, c = '\x7b' ∨ c = '\x7d' ∨ isIdentCont c = true := by
  intro c hc
  rcases name with _ | ⟨c₀, name'⟩
  · exact absurd h (by decide)
  · rw [identOk, Bool.and_eq_true] at h
    rw [c1M, List.cons_append] at hc
    rcases List.mem_cons.mp hc with rfl | hc
    · exact Or.inl rfl
    · rcases List.mem_append.mp hc with hc | hc
      · rcases List.mem_cons.mp hc with rfl | hc
        · exact Or.inr (Or.inr (identStart_cont h.1))
        · exact Or.inr (Or.inr (List.all_eq_true.mp h.2 c hc))
      · rcases List.mem_singleton.mp hc with rfl
        exact Or.inr (Or.inl rfl)

/-- The marker contains no angle bracket. -/
theorem c1M_no_lt {name : Str} (h : identOk name = true) : '<' ∉ c1M name := by
  intro hmem
  rcases c1M_chars h '<' hmem with h' | h' | h' <;> exact absurd h' (by decide)

/-- PLACEHOLDER_RE matches the whole marker at its head. -/
theorem phLenAt_M {name : Str} (h : identOk name = true) :
    phLenAt (c1M name) = some (name.length + 2) := by
  rcases name with _ | ⟨c₀, name'⟩
  · exact absurd h (by decide)
  · rw [identOk, Bool.and_eq_true] at h
    have hstart := h.1
    have hns : ¬(c₀ = '#' ∨ c₀ = '/') := by
      rintro (rfl | rfl) <;> exact absurd hstart (by decide)
    rw [show c1M (c₀ :: name') = '\x7b' :: c₀ :: (name' ++ ['\x7d']) from by
      simp [c1M]]
    rw [phLenAt]
    dsimp only
    rw [if_neg hns, List.drop_zero]
    dsimp only
    rw [if_pos hstart,
      takeWhile_append_stop name' h.2 '\x7d' (by decide) [],
      List.drop_left]
    exact congrArg some (by simp only [List.length_cons]; omega)

/-- The locator finds exactly one match on the marker: the whole of it. -/
theorem findPh_M {name : Str} (h : identOk name = true) :
    findPlaceholders (c1M name) = [(0, name.length + 1, c1M name)] := by
  rw [findPlaceholders]
  have hl : (c1M name).length = (name.length + 1) + 1 := by
    simp only [c1M, List.length_cons, List.length_append, List.length_nil]
  rw [hl, show c1M name = '\x7b' :: (name ++ ['\x7d']) from rfl, findPhGo,
    show phLenAt ('\x7b' :: (name ++ ['\x7d'])) = some (name.length + 2) from
      phLenAt_M h]
  dsimp only
  have hdrop : (name ++ ['\x7d']).drop (name.length + 2 - 1) = [] := by
    apply List.drop_eq_nil_of_le
    simp
  have htake : ('\x7b' :: (name ++ ['\x7d'])).take (name.length + 2)
      = '\x7b' :: (name ++ ['\x7d']) := by
    apply List.take_of_length_le
    simp
  rw [hdrop, htake]
  have hidx : 0 + (name.length + 2) - 1 = name.length + 1 := by omega
  rw [hidx]
  rfl

end Odf

namespace Odf

/-- The cleanup pass copies a prefix in which no match starts, then
continues on the rest with the remaining fuel. -/
theorem rmSpansGo_skip :
    ∀ (a b : Str), (∀ i, i < a.length → stripSpanPair (a.drop i ++ b) = none) →
      ∀ f, rmSpansGo (a.length + f) (a ++ b) = a ++ rmSpansGo f b := by
  intro a
  induction a with
  | nil => intro b _ f; simp
  | cons c a' ih =>
      intro b h f
      have h0 := h 0 (by simp)
      rw [List.drop_zero, List.cons_append] at h0
      have hl : (c :: a').length + f = (a'.length + f) + 1 := by
        simp only [List.length_cons]
        omega
      rw [hl, List.cons_append, rmSpansGo, h0]
      rw [ih b (fun i hi => by
        have hh := h (i + 1) (by simp only [List.length_cons]; omega)
        rwa [List.drop_succ_cons] at hh) f]
      rfl

/-- Tokenizing the fragmented C1 document yields six segments: the two
marker pieces as text inside the two span elements. -/
theorem c1_tokenize {name : Str} (h : identOk name = true) {j' : Nat}
    (hj : j' + 1 ≤ name.length + 1) :
    tokenize (c1Frag name (j' + 1)) =
      [Segment.tag "<text:span>".toList,
       Segment.text ((c1M name).take (j' + 1)),
       Segment.tag "</text:span>".toList, Segment.tag "<text:span>".toList,
       Segment.text ((c1M name).drop (j' + 1)),
       Segment.tag "</text:span>".toList] := by
  have hlt₁ : '<' ∉ (c1M name).take (j' + 1) :=
    fun hm => c1M_no_lt h (List.take_subset _ _ hm)
  have hlt₂ : '<' ∉ (c1M name).drop (j' + 1) :=
    fun hm => c1M_no_lt h (List.drop_subset _ _ hm)
  have hf₁ : (c1M name).take (j' + 1) = '\x7b' :: (name ++ ['\x7d']).take j' := rfl
  have t1 := tokenize_tag "text:span".toList (by decide)
    ((c1M name).take (j' + 1) ++ ("</text:span><text:span>".toList ++
      ((c1M name).drop (j' + 1) ++ "</text:span>".toList)))
  rw [show ('<' :: "text:span".toList ++ ['>'] : Str) = "<text:span>".toList
    from rfl] at t1
  have t2 := tokenize_text ((c1M name).take (j' + 1)) hlt₁ '\x7b'
    ((name ++ ['\x7d']).take j') hf₁
    ("/text:span><text:span>".toList ++
      ((c1M name).drop (j' + 1) ++ "</text:span>".toList))
  have t3 := tokenize_tag "/text:span".toList (by decide)
    ("<text:span>".toList ++
      ((c1M name).drop (j' + 1) ++ "</text:span>".toList))
  rw [show ('<' :: "/text:span".toList ++ ['>'] : Str) = "</text:span>".toList
    from rfl] at t3
  have t4 := tokenize_tag "text:span".toList (by decide)
    ((c1M name).drop (j' + 1) ++ "</text:span>".toList)
  rw [show ('<' :: "text:span".toList ++ ['>'] : Str) = "<text:span>".toList
    from rfl] at t4
  obtain ⟨c₂, t₂, hf₂⟩ := List.exists_cons_of_ne_nil
    (show (c1M name).drop (j' + 1) ≠ [] from by
      apply List.length_pos.mp
      simp only [List.length_drop, c1M, List.length_cons, List.length_append,
        List.length_nil]
      omega)
  have t5 := tokenize_text ((c1M name).drop (j' + 1)) hlt₂ c₂ t₂ hf₂
    "/text:span>".toList
  have t6 : tokenize ('<' :: "/text:span>".toList)
      = [Segment.tag "</text:span>".toList] := by decide
  rw [c1Frag]
  simp only [List.append_assoc]
  rw [t1]
  rw [show ∀ X : Str, "</text:span><text:span>".toList ++ X
      = '<' :: ("/text:span><text:span>".toList ++ X) from fun X => rfl]
  rw [t2]
  rw [show ∀ X : Str, '<' :: ("/text:span><text:span>".toList ++ X)
      = "</text:span>".toList ++ ("<text:span>".toList ++ X) from fun X => rfl]
  rw [t3, t4]
  rw [show ((c1M name).drop (j' + 1) ++ "</text:span>".toList : Str)
      = (c1M name).drop (j' + 1) ++ '<' :: "/text:span>".toList from rfl]
  rw [t5, t6]

/-- The ribbon of the six C1 segments: the two marker pieces, with
origins in segments 1 and 4. -/
theorem c1_ribbon (f₁ f₂ : Str) :
    ribbonFrom 0 [Segment.tag "<text:span>".toList, Segment.text f₁,
      Segment.tag "</text:span>".toList, Segment.tag "<text:span>".toList,
      Segment.text f₂, Segment.tag "</text:span>".toList]
    = f₁.enum.map (fun p => (p.2, CharOrigin.mk 1 p.1))
      ++ f₂.enum.map (fun p => (p.2, CharOrigin.mk 4 p.1)) := by
  simp [ribbonFrom]

/-- Projecting the characters back out of one text segment's ribbon
entries recovers the segment. -/
theorem ribbon_fst (c : Str) (i : Nat) :
    (c.enum.map fun p => (p.2, CharOrigin.mk i p.1)).map Prod.fst = c := by
  rw [List.map_map]
  exact List.enum_map_snd c

/-- Projecting the origins out of one text segment's ribbon entries. -/
theorem ribbon_snd (c : Str) (i : Nat) :
    (c.enum.map fun p => (p.2, CharOrigin.mk i p.1)).map Prod.snd
      = c.enum.map fun p => CharOrigin.mk i p.1 := by
  rw [List.map_map]
  rfl

end Odf

namespace Odf

/-- The origin of ribbon position 0: segment 1, offset 0. -/
theorem c1_charMap_fst (name : Str) (j' : Nat) :
    (((((c1M name).take (j' + 1)).enum.map fun p => CharOrigin.mk 1 p.1)
      ++ (((c1M name).drop (j' + 1)).enum.map fun p => CharOrigin.mk 4 p.1)).getD
        0 (CharOrigin.mk 0 0))
    = CharOrigin.mk 1 0 := by
  rw [show (c1M name).take (j' + 1) = '\x7b' :: (name ++ ['\x7d']).take j'
    from rfl]
  rw [List.enum_cons]
  rfl

/-- The origin of the closing brace, ribbon position `name.length + 1`:
segment 4, offset `name.length - j'`. -/
theorem c1_charMap_snd {name : Str} {j' : Nat} (hj : j' + 1 ≤ name.length + 1) :
    (((((c1M name).take (j' + 1)).enum.map fun p => CharOrigin.mk 1 p.1)
      ++ (((c1M name).drop (j' + 1)).enum.map fun p => CharOrigin.mk 4 p.1)).getD
        (name.length + 1) (CharOrigin.mk 0 0))
    = CharOrigin.mk 4 (name.length - j') := by
  have hl₁ : ((((c1M name).take (j' + 1)).enum.map
      fun p => CharOrigin.mk 1 p.1)).length = j' + 1 := by
    simp only [List.length_map, List.enum_length, List.length_take, c1M,
      List.length_cons, List.length_append, List.length_nil]
    omega
  have hkd : name.length - j' < ((c1M name).drop (j' + 1)).length := by
    simp only [List.length_drop, c1M, List.length_cons, List.length_append,
      List.length_nil]
    omega
  rw [List.getD_eq_getElem?_getD,
    List.getElem?_append_right (by rw [hl₁]; omega), hl₁,
    show name.length + 1 - (j' + 1) = name.length - j' from by omega,
    List.getElem?_map, List.getElem?_enum, List.getElem?_eq_getElem hkd]
  rfl

/-- Consolidating the single located placeholder: the first span's text
becomes the whole marker, the second span's text is emptied, the
intermediate tags are kept. -/
theorem c1_healStep {name : Str} {j' : Nat} (hj : j' + 1 ≤ name.length + 1) :
    healStep
      ((((c1M name).take (j' + 1)).enum.map fun p => CharOrigin.mk 1 p.1)
        ++ (((c1M name).drop (j' + 1)).enum.map fun p => CharOrigin.mk 4 p.1))
      [Segment.tag "<text:span>".toList,
       Segment.text ((c1M name).take (j' + 1)),
       Segment.tag "</text:span>".toList, Segment.tag "<text:span>".toList,
       Segment.text ((c1M name).drop (j' + 1)),
       Segment.tag "</text:span>".toList]
      (0, name.length + 1, c1M name)
    = [Segment.tag "<text:span>".toList, Segment.text (c1M name),
       Segment.tag "</text:span>".toList, Segment.tag "<text:span>".toList,
       Segment.text [], Segment.tag "</text:span>".toList] := by
  have hdrop : ((c1M name).drop (j' + 1)).drop (name.length - j' + 1) = [] := by
    apply List.drop_eq_nil_of_le
    simp only [List.length_drop, c1M, List.length_cons, List.length_append,
      List.length_nil]
    omega
  rw [healStep]
  dsimp only
  rw [c1_charMap_fst name j', c1_charMap_snd hj]
  dsimp only
  rw [if_neg (show ¬(1 : Nat) = 4 from by decide)]
  show [Segment.tag "<text:span>".toList, Segment.text (c1M name),
       Segment.tag "</text:span>".toList, Segment.tag "<text:span>".toList,
       Segment.text (((c1M name).drop (j' + 1)).drop (name.length - j' + 1)),
       Segment.tag "</text:span>".toList]
    = [Segment.tag "<text:span>".toList, Segment.text (c1M name),
       Segment.tag "</text:span>".toList, Segment.tag "<text:span>".toList,
       Segment.text [], Segment.tag "</text:span>".toList]
  rw [hdrop]

end Odf

namespace Odf

/-- No cleanup match starts inside the leading `<text:span>` of the
rebuilt C1 document: at offset 0 the head span is immediately followed by
the marker's opening brace, not by `></text:span>`. -/
theorem c1_spanA_none (name : Str) (T : Str) :
    ∀ i, i < ("<text:span>".toList).length →
      stripSpanPair (("<text:span>".toList).drop i ++ (c1M name ++ T)) = none := by
  intro i hi
  match i, hi with
  | 0, _ => rfl
  | 1, _ => exact stripSpanPair_ne (by decide)
  | 2, _ => exact stripSpanPair_ne (by decide)
  | 3, _ => exact stripSpanPair_ne (by decide)
  | 4, _ => exact stripSpanPair_ne (by decide)
  | 5, _ => exact stripSpanPair_ne (by decide)
  | 6, _ => exact stripSpanPair_ne (by decide)
  | 7, _ => exact stripSpanPair_ne (by decide)
  | 8, _ => exact stripSpanPair_ne (by decide)
  | 9, _ => exact stripSpanPair_ne (by decide)
  | 10, _ => exact stripSpanPair_ne (by decide)

/-- Healing the fragmented C1 document produces exactly the contiguous
document: the marker is consolidated into the first span and the emptied
second span is removed by the cleanup pass. -/
theorem c1_heal {name : Str} (h : identOk name = true) {j' : Nat}
    (hj : j' + 1 ≤ name.length + 1) :
    healPlaceholders (c1Frag name (j' + 1)) = c1Contig name := by
  rw [healPlaceholders]
  dsimp only
  rw [c1_tokenize h hj, buildRibbon]
  dsimp only
  rw [c1_ribbon, List.map_append, List.map_append, ribbon_fst, ribbon_fst,
    ribbon_snd, ribbon_snd, List.take_append_drop, findPh_M h,
    List.isEmpty_cons]
  rw [if_neg (show ¬false = true from by decide)]
  rw [List.reverse_singleton, List.foldl_cons, List.foldl_nil, c1_healStep hj]
  show removeEmptySpans ("<text:span>".toList ++
      (c1M name ++ "</text:span><text:span></text:span>".toList))
    = c1Contig name
  rw [removeEmptySpans, List.length_append,
    rmSpansGo_skip "<text:span>".toList
      (c1M name ++ "</text:span><text:span></text:span>".toList)
      (c1_spanA_none name "</text:span><text:span></text:span>".toList),
    List.length_append,
    rmSpansGo_skip (c1M name) "</text:span><text:span></text:span>".toList
      (noSpanLt (c1M_no_lt h)),
    show rmSpansGo ("</text:span><text:span></text:span>".toList).length
        "</text:span><text:span></text:span>".toList
      = "</text:span>".toList from by decide,
    c1Contig, List.append_assoc]

end Odf

namespace Odf

/-- C1 (amended): fragmentation invariance holds for the span-splitting
family the healer is built for. For any marker `\x7bname\x7d` with a valid
identifier `name`, split at any interior position `j` across two sibling
`text:span` elements, healing the fragmented document yields exactly the
contiguous document, and hence healing followed by rendering agrees with
rendering the contiguous document for every data mapping and every
result. (The unrestricted claim is refuted by the counterexample: the
healer's empty-span cleanup can change how section boundaries expand.) -/
theorem c1_amended (name : Str) (j : Nat) (d : Data) (r : Str)
    (h : identOk name = true) (h1 : 1 ≤ j) (h2 : j ≤ name.length + 1) :
    healPlaceholders (c1Frag name j) = c1Contig name ∧
      (Renders (healPlaceholders (c1Frag name j)) d r ↔
        Renders (c1Contig name) d r) := by
  obtain ⟨j', rfl⟩ : ∃ j', j = j' + 1 := ⟨j - 1, by omega⟩
  have hh := c1_heal h (show j' + 1 ≤ name.length + 1 from h2)
  exact ⟨hh, by rw [hh]⟩

/-- Witness for C1 (amended) at `name = "v"`, split after the opening
brace, with empty data. -/
theorem c1_amended_witness :
    identOk "v".toList = true ∧ 1 ≤ 1 ∧ 1 ≤ ("v".toList : Str).length + 1 ∧
      (healPlaceholders (c1Frag "v".toList 1) = c1Contig "v".toList ∧
        (Renders (healPlaceholders (c1Frag "v".toList 1)) [] "x".toList ↔
          Renders (c1Contig "v".toList) [] "x".toList)) :=
  ⟨by decide, by decide, by decide,
    c1_amended "v".toList 1 [] "x".toList (by decide) (by decide) (by decide)⟩

end Odf
